import Mathlib

/-
  Verification development for the oracle-price-integrity lab.

  Shallow embedding conventions:
  * Python floats are modelled as rationals (ℚ).
  * The `float("nan")` sentinel marking an undefined benchmark price is
    modelled as `none : Option ℚ`; `math.isnan` corresponds to matching on
    `none` versus `some _`.
  * `datetime` timestamps are modelled as rationals counting seconds, so
    `(a - b).total_seconds()` becomes plain subtraction.
  * Python lists are Lean lists; `xs.append(x)` is `xs ++ [x]`.
  * Default argument values of the Python functions are passed explicitly at
    the call sites that use them (40, 1/5, 4, 30).
-/

attribute [local semireducible] Rat.mul Rat.inv Rat.add Rat.sub

namespace OracleLab

/-- A single venue observation (`VenuePoint` in `oracle_anomaly_demo.py`). -/
structure VenuePoint where
  ts : ℚ
  venue : String
  price : ℚ
  liquidity : ℚ
  deriving DecidableEq

/-- One emitted record (`BenchmarkPoint` in `oracle_anomaly_demo.py`). -/
structure BenchmarkPoint where
  ts : ℚ
  benchmark_price : Option ℚ
  staleness_flag : Bool
  thin_liquidity_flag : Bool
  flash_loan_flag : Bool
  deriving DecidableEq

/-- `compute_liquidity_weighted_benchmark`: returns the pair
`(benchmark_price, total_liquidity)`; the NaN sentinel is `none`. -/
def compute_liquidity_weighted_benchmark (points : List VenuePoint) :
    Option ℚ × ℚ :=
  let liqs := points.map (·.liquidity)
  if liqs.sum ≤ 0 then (none, 0)
  else
    let total := liqs.sum
    let benchmark := (points.map (fun p => p.liquidity / total * p.price)).sum
    (some benchmark, total)

/-- The per-venue weight vector `weights = liqs / liqs.sum()` computed inside
`compute_liquidity_weighted_benchmark`. -/
def venue_weights (points : List VenuePoint) : List ℚ :=
  let liqs := points.map (·.liquidity)
  liqs.map (fun x => x / liqs.sum)

/-- `detect_staleness`: flag if `current_ts - last_update_ts` exceeds the
threshold (Python default `max_staleness_seconds = 40`). -/
def detect_staleness (current_ts last_update_ts max_staleness_seconds : ℚ) :
    Bool :=
  decide (current_ts - last_update_ts > max_staleness_seconds)

/-- Model of `np.quantile(xs, q)` with numpy's default linear-interpolation
method: sort ascending, set `h = (n-1)*q`, and interpolate between the
elements at positions `⌊h⌋` and `⌊h⌋+1` (the latter clamped to the last
index). -/
def np_quantile (xs : List ℚ) (q : ℚ) : ℚ :=
  let s := xs.insertionSort (· ≤ ·)
  let n := xs.length
  let h : ℚ := ((n : ℚ) - 1) * q
  let i : ℕ := h.floor.toNat
  let g : ℚ := h - (i : ℚ)
  let x0 := s.getD i 0
  let x1 := s.getD (min (i + 1) (n - 1)) 0
  x0 + g * (x1 - x0)

/-- `detect_thin_liquidity`: cold-start guard below 10 samples, otherwise
compare against the rolling quantile (Python default
`quantile_threshold = 0.2`). -/
def detect_thin_liquidity (total_liquidity : ℚ) (rolling_liquidity : List ℚ)
    (quantile_threshold : ℚ) : Bool :=
  if rolling_liquidity.length < 10 then false
  else decide (total_liquidity < np_quantile rolling_liquidity quantile_threshold)

/-- `detect_flash_loan_pattern`: look at the last three benchmark values
(`recent_benchmarks[-3:]`); short-circuit to `false` on fewer than three
values or any NaN sentinel (Python default `spike_threshold_pct = 4.0`). -/
def detect_flash_loan_pattern (recent_benchmarks : List (Option ℚ))
    (spike_threshold_pct : ℚ) : Bool :=
  if recent_benchmarks.length < 3 then false
  else
    match recent_benchmarks.drop (recent_benchmarks.length - 3) with
    | [some prev_prev, some prev, some current] =>
        let jump_pct := (current - prev_prev) / prev_prev * 100
        if jump_pct < spike_threshold_pct then false
        else decide (|prev - prev_prev| < |current - prev_prev|)
    | _ => false

/-- The mutable loop state of `run_demo`. -/
structure DemoState where
  benchmark_history : List BenchmarkPoint
  rolling_liq : List ℚ
  rolling_benchmarks : List (Option ℚ)
  last_update_ts : Option ℚ
  deriving DecidableEq

/-- State at entry of the `run_demo` loop. -/
def init_state : DemoState := ⟨[], [], [], none⟩

/-- One iteration of the `for ts in sorted_ts` loop body of `run_demo`. -/
def run_step (s : DemoState) (ts : ℚ) (venue_points : List VenuePoint) :
    DemoState :=
  let bt := compute_liquidity_weighted_benchmark venue_points
  let benchmark_price := bt.1
  let total_liq := bt.2
  let last0 := match s.last_update_ts with
    | none => ts
    | some t => t
  let staleness_flag := detect_staleness ts last0 40
  let rolling_liq := s.rolling_liq ++ [total_liq]
  let thin_liq_flag := detect_thin_liquidity total_liq rolling_liq (1/5)
  let rolling_benchmarks := s.rolling_benchmarks ++ [benchmark_price]
  let flash_flag := detect_flash_loan_pattern rolling_benchmarks 4
  let last1 := if benchmark_price.isSome then ts else last0
  ⟨s.benchmark_history ++ [⟨ts, benchmark_price, staleness_flag, thin_liq_flag, flash_flag⟩],
   rolling_liq, rolling_benchmarks, some last1⟩

/-- The venue points grouped under one timestamp
(`points_by_ts.setdefault(p.ts, []).append(p)` keeps encounter order). -/
def points_at (series : List VenuePoint) (t : ℚ) : List VenuePoint :=
  series.filter (fun p => decide (p.ts = t))

/-- `sorted_ts = sorted(points_by_ts.keys())`: the distinct timestamps of the
series in ascending order. -/
def sorted_ts (series : List VenuePoint) : List ℚ :=
  ((series.map (·.ts)).dedup).insertionSort (· ≤ ·)

/-- The aggregation-and-detection loop of `run_demo`, as a function of the
input series (the synthetic generator is an external collaborator). -/
def run_demo_loop (series : List VenuePoint) : DemoState :=
  (sorted_ts series).foldl (fun s t => run_step s t (points_at series t)) init_state

/-- `uniswap_v2_price` from `flashloan_simulator.py`. -/
def uniswap_v2_price (reserve_in reserve_out : ℚ) : ℚ :=
  reserve_out / reserve_in

/-- `uniswap_v2_swap` from `flashloan_simulator.py` (Python default
`fee_bps = 30`): returns `(new_reserve_in, new_reserve_out, amount_out)`. -/
def uniswap_v2_swap (reserve_in reserve_out amount_in fee_bps : ℚ) :
    ℚ × ℚ × ℚ :=
  let fee := fee_bps / 10000
  let amount_in_with_fee := amount_in * (1 - fee)
  let numerator := amount_in_with_fee * reserve_out
  let denominator := reserve_in + amount_in_with_fee
  let amount_out := numerator / denominator
  (reserve_in + amount_in, reserve_out - amount_out, amount_out)

/-- A decoded log event (`LogEvent` in `swap_trace_decoder.py`). -/
structure LogEvent where
  tx_hash : String
  event_type : String
  pool : String
  token_in : String
  token_out : String
  amount_in : ℚ
  amount_out : ℚ
  deriving DecidableEq

/-- One `+=` update of the nested `defaultdict(lambda: defaultdict(float))`
summary, read as the total function it represents (absent keys read as 0). -/
def add_flow (m : String → String → ℚ) (pool label : String) (v : ℚ) :
    String → String → ℚ :=
  fun p l => if p = pool ∧ l = label then m p l + v else m p l

/-- The body of the `for e in events` loop of `summarize_swaps`. -/
def summarize_step (m : String → String → ℚ) (e : LogEvent) :
    String → String → ℚ :=
  if e.event_type ≠ "SWAP" then m
  else
    add_flow (add_flow m e.pool (e.token_in ++ "_sold") e.amount_in)
      e.pool (e.token_out ++ "_bought") e.amount_out

/-- `summarize_swaps` from `swap_trace_decoder.py`, as the total function
`pool ↦ label ↦ accumulated amount` represented by the nested defaultdict. -/
def summarize_swaps (events : List LogEvent) : String → String → ℚ :=
  events.foldl summarize_step (fun _ _ => 0)

/-- Minimum of a list of rationals relative to a seed value. -/
def list_min (l : List ℚ) (d : ℚ) : ℚ := l.foldr min d

/-- Maximum of a list of rationals relative to a seed value. -/
def list_max (l : List ℚ) (d : ℚ) : ℚ := l.foldr max d

lemma list_min_le_seed (l : List ℚ) (d : ℚ) : list_min l d ≤ d := by
  induction l with
  | nil => exact le_refl d
  | cons x xs ih => exact le_trans (min_le_right x _) ih

lemma list_min_le_mem (l : List ℚ) (d x : ℚ) (hx : x ∈ l) : list_min l d ≤ x := by
  induction l with
  | nil => cases hx
  | cons y ys ih =>
    rcases List.mem_cons.mp hx with rfl | hmem
    · exact min_le_left x _
    · exact le_trans (min_le_right y _) (ih hmem)

lemma seed_le_list_max (l : List ℚ) (d : ℚ) : d ≤ list_max l d := by
  induction l with
  | nil => exact le_refl d
  | cons x xs ih => exact le_trans ih (le_max_right x _)

lemma mem_le_list_max (l : List ℚ) (d x : ℚ) (hx : x ∈ l) : x ≤ list_max l d := by
  induction l with
  | nil => cases hx
  | cons y ys ih =>
    rcases List.mem_cons.mp hx with rfl | hmem
    · exact le_max_left x _
    · exact le_trans (ih hmem) (le_max_right y _)

lemma flash_drop_append (l : List (Option ℚ)) (a b c : Option ℚ) :
    (l ++ [a, b, c]).drop ((l ++ [a, b, c]).length - 3) = [a, b, c] := by
  have h : (l ++ [a, b, c]).length - 3 = l.length := by simp
  rw [h, List.drop_left]

lemma flash_length_not_lt (l : List (Option ℚ)) (a b c : Option ℚ) :
    ¬ (l ++ [a, b, c]).length < 3 := by
  simp only [List.length_append, List.length_cons, List.length_nil]
  omega

/-- C1: the flash-loan detector returns false on fewer than three values or a
sentinel among the last three; otherwise, with the last three values
`(b0, b1, b2)` in chronological order, it returns false when
`(b2 - b0) / b0 * 100` is below the spike threshold and otherwise returns
true iff `|b1 - b0| < |b2 - b0|`; the three concrete examples behave as the
spec describes at the default threshold 4.  (The `b0 ≠ 0` hypothesis marks
the inputs where the Python division is defined.) -/
theorem detect_flash_loan_pattern_spec :
    (∀ (l : List (Option ℚ)) (thr : ℚ), l.length < 3 →
        detect_flash_loan_pattern l thr = false) ∧
    (∀ (l : List (Option ℚ)) (b0 b1 b2 : Option ℚ) (thr : ℚ),
        b0 = none ∨ b1 = none ∨ b2 = none →
        detect_flash_loan_pattern (l ++ [b0, b1, b2]) thr = false) ∧
    (∀ (l : List (Option ℚ)) (b0 b1 b2 thr : ℚ), b0 ≠ 0 →
        detect_flash_loan_pattern (l ++ [some b0, some b1, some b2]) thr =
          if (b2 - b0) / b0 * 100 < thr then false
          else decide (|b1 - b0| < |b2 - b0|)) ∧
    detect_flash_loan_pattern [some 100, some 101, some 106] 4 = true ∧
    detect_flash_loan_pattern [some 100, some 110, some 120] 4 = true ∧
    detect_flash_loan_pattern [some 100, some 99, some 101] 4 = false := by
  refine ⟨?_, ?_, ?_, by decide, by decide, by decide⟩
  · intro l thr h
    unfold detect_flash_loan_pattern
    rw [if_pos h]
  · intro l b0 b1 b2 thr h
    unfold detect_flash_loan_pattern
    rw [if_neg (flash_length_not_lt l b0 b1 b2), flash_drop_append]
    rcases h with rfl | rfl | rfl
    · rfl
    · cases b0 <;> rfl
    · cases b0 <;> cases b1 <;> rfl
  · intro l b0 b1 b2 thr _
    unfold detect_flash_loan_pattern
    rw [if_neg (flash_length_not_lt l _ _ _), flash_drop_append]

/-- Witness for C1: instantiates every hypothesis of the flash-loan theorem at
concrete inputs. -/
theorem detect_flash_loan_pattern_spec_witness :
    detect_flash_loan_pattern [] 4 = false ∧
    detect_flash_loan_pattern ([] ++ [none, some 1, some 2]) 4 = false ∧
    detect_flash_loan_pattern ([] ++ [some 100, some 101, some 106]) 4 =
      (if ((106 : ℚ) - 100) / 100 * 100 < 4 then false
       else decide (|(101 : ℚ) - 100| < |(106 : ℚ) - 100|)) :=
  ⟨detect_flash_loan_pattern_spec.1 [] 4 (by decide),
   detect_flash_loan_pattern_spec.2.1 [] none (some 1) (some 2) 4 (Or.inl rfl),
   detect_flash_loan_pattern_spec.2.2.1 [] 100 101 106 4 (by decide)⟩

/-- C4: whenever the liquidities of an observation set sum to a value that is
not positive — including the empty set — the aggregator returns the sentinel
price (`none`) paired with total liquidity `0`; the dividing branch is never
taken in that case. -/
theorem compute_benchmark_nonpositive_liquidity :
    ∀ points : List VenuePoint, (points.map (·.liquidity)).sum ≤ 0 →
      compute_liquidity_weighted_benchmark points = (none, 0) := by
  intro points h
  unfold compute_liquidity_weighted_benchmark
  rw [if_pos h]

/-- Witness for C4: the empty observation set. -/
theorem compute_benchmark_nonpositive_liquidity_witness :
    compute_liquidity_weighted_benchmark [] = (none, 0) :=
  compute_benchmark_nonpositive_liquidity [] (by decide)

/-- C6: the staleness detector returns true iff the elapsed time strictly
exceeds the threshold; at exactly 40 elapsed seconds (default threshold) it
returns false and at 41 seconds it returns true. -/
theorem detect_staleness_spec :
    (∀ current_ts last_update_ts thr : ℚ,
        detect_staleness current_ts last_update_ts thr =
          decide (current_ts - last_update_ts > thr)) ∧
    detect_staleness 40 0 40 = false ∧
    detect_staleness 41 0 40 = true :=
  ⟨fun _ _ _ => rfl, by decide, by decide⟩

lemma sum_map_div (l : List ℚ) (t : ℚ) : (l.map (fun x => x / t)).sum = l.sum / t := by
  induction l with
  | nil => simp
  | cons x xs ih => simp [ih, add_div]

lemma sum_weighted_div (pts : List VenuePoint) (t : ℚ) :
    (pts.map (fun p => p.liquidity / t * p.price)).sum =
      (pts.map (fun p => p.liquidity * p.price)).sum / t := by
  induction pts with
  | nil => simp
  | cons p ps ih =>
    rw [List.map_cons, List.map_cons, List.sum_cons, List.sum_cons, ih, add_div,
      div_mul_eq_mul_div]

lemma weighted_sum_bounds (pts : List VenuePoint) (lo hi : ℚ)
    (hl : ∀ p ∈ pts, 0 ≤ p.liquidity)
    (hb : ∀ p ∈ pts, lo ≤ p.price ∧ p.price ≤ hi) :
    lo * (pts.map (·.liquidity)).sum ≤ (pts.map (fun p => p.liquidity * p.price)).sum ∧
    (pts.map (fun p => p.liquidity * p.price)).sum ≤ hi * (pts.map (·.liquidity)).sum := by
  induction pts with
  | nil => simp
  | cons p ps ih =>
    have hlp := hl p (List.mem_cons_self p ps)
    have hbp := hb p (List.mem_cons_self p ps)
    have ihs := ih (fun q hq => hl q (List.mem_cons_of_mem p hq))
      (fun q hq => hb q (List.mem_cons_of_mem p hq))
    simp only [List.map_cons, List.sum_cons, mul_add]
    constructor
    · have h1 : lo * p.liquidity ≤ p.liquidity * p.price := by
        nlinarith [hbp.1, hlp]
      linarith [ihs.1]
    · have h1 : p.liquidity * p.price ≤ hi * p.liquidity := by
        nlinarith [hbp.2, hlp]
      linarith [ihs.2]

/-- C5: for a non-empty observation set with positive liquidities, the
per-venue weights sum to 1, the benchmark price is defined and lies between
the minimum and the maximum input price, and in the single-venue case the
benchmark equals that venue's price with its liquidity as total. -/
theorem compute_benchmark_weights_and_bounds :
    ∀ (pt : VenuePoint) (rest : List VenuePoint),
      (∀ p ∈ pt :: rest, 0 < p.liquidity) →
      (venue_weights (pt :: rest)).sum = 1 ∧
      (∃ b : ℚ,
        compute_liquidity_weighted_benchmark (pt :: rest) =
          (some b, ((pt :: rest).map (·.liquidity)).sum) ∧
        list_min (rest.map (·.price)) pt.price ≤ b ∧
        b ≤ list_max (rest.map (·.price)) pt.price) ∧
      compute_liquidity_weighted_benchmark [pt] = (some pt.price, pt.liquidity) := by
  intro pt rest hpos
  have htot : 0 < ((pt :: rest).map (·.liquidity)).sum := by
    refine List.sum_pos _ ?_ (by simp)
    intro a ha
    rcases List.mem_map.mp ha with ⟨p, hp, rfl⟩
    exact hpos p hp
  have htot' : ¬ ((pt :: rest).map (·.liquidity)).sum ≤ 0 := not_le.mpr htot
  refine ⟨?_, ?_, ?_⟩
  · unfold venue_weights
    rw [sum_map_div, div_self (ne_of_gt htot)]
  · refine ⟨((pt :: rest).map (fun p => p.liquidity / ((pt :: rest).map (·.liquidity)).sum * p.price)).sum, ?_, ?_, ?_⟩
    · unfold compute_liquidity_weighted_benchmark
      rw [if_neg htot']
    · set lo := list_min (rest.map (·.price)) pt.price with hlo
      have hble : ∀ p ∈ pt :: rest, lo ≤ p.price ∧ p.price ≤ list_max (rest.map (·.price)) pt.price := by
        intro p hp
        rcases List.mem_cons.mp hp with rfl | hmem
        · exact ⟨list_min_le_seed _ _, seed_le_list_max _ _⟩
        · exact ⟨list_min_le_mem _ _ _ (List.mem_map_of_mem _ hmem),
            mem_le_list_max _ _ _ (List.mem_map_of_mem _ hmem)⟩
      have hbounds := weighted_sum_bounds (pt :: rest) lo (list_max (rest.map (·.price)) pt.price)
        (fun q hq => (hpos q hq).le) hble
      rw [sum_weighted_div]
      exact (le_div_iff htot).mpr (by linarith [hbounds.1])
    · set hi := list_max (rest.map (·.price)) pt.price with hhi
      have hble : ∀ p ∈ pt :: rest, list_min (rest.map (·.price)) pt.price ≤ p.price ∧ p.price ≤ hi := by
        intro p hp
        rcases List.mem_cons.mp hp with rfl | hmem
        · exact ⟨list_min_le_seed _ _, seed_le_list_max _ _⟩
        · exact ⟨list_min_le_mem _ _ _ (List.mem_map_of_mem _ hmem),
            mem_le_list_max _ _ _ (List.mem_map_of_mem _ hmem)⟩
      have hbounds := weighted_sum_bounds (pt :: rest)
        (list_min (rest.map (·.price)) pt.price) hi
        (fun q hq => (hpos q hq).le) hble
      rw [sum_weighted_div]
      exact (div_le_iff htot).mpr (by linarith [hbounds.2])
  · have hpt : 0 < pt.liquidity := hpos pt (List.mem_cons_self pt rest)
    have hsum : ([pt].map (·.liquidity)).sum = pt.liquidity := by simp
    simp only [compute_liquidity_weighted_benchmark]
    rw [hsum, if_neg (not_le.mpr hpt)]
    simp [div_self (ne_of_gt hpt)]

/-- Witness for C5: a concrete two-venue observation set with positive
liquidities. -/
theorem compute_benchmark_weights_and_bounds_witness :
    (venue_weights [⟨0, "A", 100, 3⟩, ⟨0, "B", 200, 1⟩]).sum = 1 :=
  (compute_benchmark_weights_and_bounds ⟨0, "A", 100, 3⟩ [⟨0, "B", 200, 1⟩]
    (by decide)).1

lemma rat_floor_bridge (q : ℚ) : ⌊q⌋ = q.floor :=
  (Rat.floor_def).trans (Rat.floor_def' q).symm

lemma np_quantile_le (xs : List ℚ) (q M : ℚ) (hq0 : 0 ≤ q) (hq1 : q ≤ 1)
    (hne : xs ≠ []) (hM : ∀ x ∈ xs, x ≤ M) : np_quantile xs q ≤ M := by
  have hn : 0 < xs.length := List.length_pos.mpr hne
  have hcast : (1 : ℚ) ≤ (xs.length : ℚ) := by exact_mod_cast hn
  simp only [np_quantile]
  set s := xs.insertionSort (· ≤ ·) with hs
  set hh : ℚ := ((xs.length : ℚ) - 1) * q with hhh
  set i : ℕ := hh.floor.toNat with hi
  have hh0 : 0 ≤ hh := mul_nonneg (by linarith) hq0
  have hhle : hh ≤ (xs.length : ℚ) - 1 := by nlinarith
  have hfl : (0 : ℤ) ≤ hh.floor := by
    rw [← rat_floor_bridge]
    exact Int.floor_nonneg.mpr hh0
  have hiz : (i : ℤ) = ⌊hh⌋ := by
    rw [hi, rat_floor_bridge]
    exact Int.toNat_of_nonneg hfl
  have hiq : (i : ℚ) = ((⌊hh⌋ : ℤ) : ℚ) := by rw [← hiz, Int.cast_natCast]
  have hile : (i : ℚ) ≤ hh := by rw [hiq]; exact Int.floor_le hh
  have higt : hh < (i : ℚ) + 1 := by rw [hiq]; exact Int.lt_floor_add_one hh
  have hslen : s.length = xs.length := (List.perm_insertionSort _ xs).length_eq
  have hin : i < xs.length := by
    have : (i : ℚ) < (xs.length : ℚ) := by linarith
    exact_mod_cast this
  have hjn : min (i + 1) (xs.length - 1) < xs.length := by omega
  have hi_lt : i < s.length := by rw [hslen]; exact hin
  have hj_lt : min (i + 1) (xs.length - 1) < s.length := by rw [hslen]; exact hjn
  have hx0 : s.getD i 0 ≤ M := by
    rw [List.getD_eq_getElem s 0 hi_lt]
    exact hM _ ((List.perm_insertionSort _ xs).mem_iff.mp (List.getElem_mem hi_lt))
  have hx1 : s.getD (min (i + 1) (xs.length - 1)) 0 ≤ M := by
    rw [List.getD_eq_getElem s 0 hj_lt]
    exact hM _ ((List.perm_insertionSort _ xs).mem_iff.mp (List.getElem_mem hj_lt))
  have e1 : 0 ≤ (1 - (hh - (i : ℚ))) * (M - s.getD i 0) :=
    mul_nonneg (by linarith) (by linarith)
  have e2 : 0 ≤ (hh - (i : ℚ)) * (M - s.getD (min (i + 1) (xs.length - 1)) 0) :=
    mul_nonneg (by linarith) (by linarith)
  nlinarith [e1, e2]

/-- C7: the thin-liquidity detector returns false whenever fewer than 10
historical samples exist; with at least 10 samples it flags true iff the
current liquidity is strictly below the linear-interpolation quantile of the
full history, and in particular a current value that is an upper bound of the
history (such as its maximum) is never flagged at the default quantile 0.2. -/
theorem detect_thin_liquidity_spec :
    (∀ (total : ℚ) (hist : List ℚ) (q : ℚ), hist.length < 10 →
        detect_thin_liquidity total hist q = false) ∧
    (∀ (total : ℚ) (hist : List ℚ) (q : ℚ), 10 ≤ hist.length →
        (detect_thin_liquidity total hist q = true ↔ total < np_quantile hist q)) ∧
    (∀ (total : ℚ) (hist : List ℚ), 10 ≤ hist.length →
        (∀ x ∈ hist, x ≤ total) →
        detect_thin_liquidity total hist (1/5) = false) := by
  refine ⟨?_, ?_, ?_⟩
  · intro total hist q h
    unfold detect_thin_liquidity
    rw [if_pos h]
  · intro total hist q h
    unfold detect_thin_liquidity
    rw [if_neg (not_lt.mpr h)]
    simp
  · intro total hist h hub
    have hne : hist ≠ [] := by
      intro hnil
      rw [hnil] at h
      simp at h
    have hqle : np_quantile hist (1/5) ≤ total :=
      np_quantile_le hist (1/5) total (by norm_num) (by norm_num) hne hub
    unfold detect_thin_liquidity
    rw [if_neg (not_lt.mpr h)]
    simpa using not_lt.mpr hqle

/-- Witness for C7: a 5-sample history is never flagged, and with the
10-sample history `[100]*9 ++ [10]` a current value of 100 (the maximum) is
not flagged. -/
theorem detect_thin_liquidity_spec_witness :
    detect_thin_liquidity (1/100) [1, 2, 3, 4, 5] (1/5) = false ∧
    detect_thin_liquidity 100
      [100, 100, 100, 100, 100, 100, 100, 100, 100, 10] (1/5) = false :=
  ⟨detect_thin_liquidity_spec.1 (1/100) [1, 2, 3, 4, 5] (1/5) (by decide),
   detect_thin_liquidity_spec.2.2 100
     [100, 100, 100, 100, 100, 100, 100, 100, 100, 10] (by decide) (by decide)⟩

lemma run_step_components (s : DemoState) (ts : ℚ) (pts : List VenuePoint) :
    (run_step s ts pts).rolling_liq =
      s.rolling_liq ++ [(compute_liquidity_weighted_benchmark pts).2] ∧
    (run_step s ts pts).rolling_benchmarks =
      s.rolling_benchmarks ++ [(compute_liquidity_weighted_benchmark pts).1] ∧
    ((run_step s ts pts).benchmark_history.map (·.ts)) =
      (s.benchmark_history.map (·.ts)) ++ [ts] := by
  refine ⟨rfl, rfl, ?_⟩
  simp [run_step]

lemma run_fold_lengths (f : ℚ → List VenuePoint) (L : List ℚ) :
    ∀ s : DemoState,
      ((L.foldl (fun s t => run_step s t (f t)) s).rolling_liq.length =
          s.rolling_liq.length + L.length) ∧
      ((L.foldl (fun s t => run_step s t (f t)) s).rolling_benchmarks.length =
          s.rolling_benchmarks.length + L.length) ∧
      ((L.foldl (fun s t => run_step s t (f t)) s).benchmark_history.length =
          s.benchmark_history.length + L.length) := by
  induction L with
  | nil => intro s; simp
  | cons t ts ih =>
    intro s
    have hstep := run_step_components s t (f t)
    have ihs := ih (run_step s t (f t))
    have h1 : (run_step s t (f t)).rolling_liq.length = s.rolling_liq.length + 1 := by
      rw [hstep.1]; simp
    have h2 : (run_step s t (f t)).rolling_benchmarks.length =
        s.rolling_benchmarks.length + 1 := by
      rw [hstep.2.1]; simp
    have h3 : (run_step s t (f t)).benchmark_history.length =
        s.benchmark_history.length + 1 := by
      have := congrArg List.length hstep.2.2
      simpa using this
    refine ⟨?_, ?_, ?_⟩
    · rw [List.foldl_cons, ihs.1, h1, List.length_cons]; omega
    · rw [List.foldl_cons, ihs.2.1, h2, List.length_cons]; omega
    · rw [List.foldl_cons, ihs.2.2, h3, List.length_cons]; omega

/-- C8: one orchestrator step appends exactly one element to the liquidity
history, one to the benchmark history and one emitted record, so over any
full run both histories have equal length — one entry per processed
timestamp, sentinel steps included. -/
theorem history_lengths_in_lockstep :
    (∀ (s : DemoState) (ts : ℚ) (pts : List VenuePoint),
        (run_step s ts pts).rolling_liq.length = s.rolling_liq.length + 1 ∧
        (run_step s ts pts).rolling_benchmarks.length =
          s.rolling_benchmarks.length + 1 ∧
        (run_step s ts pts).benchmark_history.length =
          s.benchmark_history.length + 1) ∧
    (∀ series : List VenuePoint,
        (run_demo_loop series).rolling_liq.length = (sorted_ts series).length ∧
        (run_demo_loop series).rolling_benchmarks.length =
          (sorted_ts series).length ∧
        (run_demo_loop series).benchmark_history.length =
          (sorted_ts series).length) := by
  constructor
  · intro s ts pts
    have hstep := run_step_components s ts pts
    refine ⟨by rw [hstep.1]; simp, by rw [hstep.2.1]; simp, ?_⟩
    have := congrArg List.length hstep.2.2
    simpa using this
  · intro series
    have h := run_fold_lengths (points_at series) (sorted_ts series) init_state
    simpa [run_demo_loop, init_state] using h

lemma run_step_last (s : DemoState) (t₀ ts : ℚ) (pts : List VenuePoint)
    (h : s.last_update_ts = some t₀) :
    (run_step s ts pts).last_update_ts = some t₀ ∨
      ((run_step s ts pts).last_update_ts = some ts ∧
        (compute_liquidity_weighted_benchmark pts).1.isSome = true) := by
  by_cases hv : (compute_liquidity_weighted_benchmark pts).1.isSome = true
  · right
    refine ⟨?_, hv⟩
    simp [run_step, h, hv]
  · left
    simp [run_step, h, hv]

lemma run_fold_last (series : List VenuePoint) (L : List ℚ) :
    ∀ (s : DemoState) (t₀ : ℚ), s.last_update_ts = some t₀ →
      ∀ t : ℚ,
        (L.foldl (fun s u => run_step s u (points_at series u)) s).last_update_ts =
          some t →
        t = t₀ ∨
          (compute_liquidity_weighted_benchmark (points_at series t)).1.isSome = true := by
  induction L with
  | nil =>
    intro s t₀ hs t ht
    rw [List.foldl_nil, hs] at ht
    exact Or.inl (Option.some.inj ht).symm
  | cons u us ih =>
    intro s t₀ hs t ht
    rw [List.foldl_cons] at ht
    rcases run_step_last s t₀ u (points_at series u) hs with h1 | ⟨h1, hv⟩
    · exact ih _ t₀ h1 t ht
    · rcases ih _ u h1 t ht with rfl | hvt
      · exact Or.inr hv
      · exact Or.inr hvt

/-- C2 counterexample: on an input whose very first group has zero total
liquidity, the loop seeds `last_update_ts` with that group's timestamp even
though the benchmark of that step is the sentinel, so the claim as stated
fails on the code. -/
theorem last_update_ts_seeded_at_sentinel_step :
    (run_demo_loop [⟨0, "A", 100, 0⟩]).last_update_ts = some 0 ∧
    ((run_demo_loop [⟨0, "A", 100, 0⟩]).benchmark_history.map
        (fun b => (b.ts, b.benchmark_price))) = [(0, none)] := by
  decide

lemma run_from_init_last (series : List VenuePoint) (L : List ℚ) (t : ℚ)
    (ht : (L.foldl (fun s u => run_step s u (points_at series u))
        init_state).last_update_ts = some t) :
    L.head? = some t ∨
      (compute_liquidity_weighted_benchmark (points_at series t)).1.isSome = true := by
  rcases L with _ | ⟨t₁, rest⟩
  · rw [List.foldl_nil] at ht
    simp [init_state] at ht
  · rw [List.foldl_cons] at ht
    have hs₁ : (run_step init_state t₁ (points_at series t₁)).last_update_ts = some t₁ := by
      simp [run_step, init_state]
    rcases run_fold_last series rest _ t₁ hs₁ t ht with rfl | hv
    · left; rfl
    · right; exact hv

lemma head?_of_take {α : Type} (l : List α) (n : ℕ) (x : α)
    (h : (l.take n).head? = some x) : l.head? = some x := by
  cases l with
  | nil => simp at h
  | cons a as =>
    cases n with
    | zero => simp at h
    | succ m => simpa using h

/-- C2 (amended): apart from the initial seeding — which records the first
processed timestamp unconditionally, even when its benchmark is the sentinel
— `last_update_ts` only ever holds a timestamp whose aggregated benchmark was
a valid (non-sentinel) value; this holds at the end of a run and after every
intermediate per-timestamp step. -/
theorem last_update_valid_after_seed :
    ∀ (series : List VenuePoint) (t : ℚ),
      ((run_demo_loop series).last_update_ts = some t →
        (sorted_ts series).head? = some t ∨
          (compute_liquidity_weighted_benchmark (points_at series t)).1.isSome = true) ∧
      (∀ n : ℕ,
        (((sorted_ts series).take n).foldl
            (fun s u => run_step s u (points_at series u))
            init_state).last_update_ts = some t →
        (sorted_ts series).head? = some t ∨
          (compute_liquidity_weighted_benchmark (points_at series t)).1.isSome = true) := by
  intro series t
  constructor
  · intro ht
    exact run_from_init_last series (sorted_ts series) t ht
  · intro n ht
    rcases run_from_init_last series ((sorted_ts series).take n) t ht with hh | hv
    · exact Or.inl (head?_of_take _ n t hh)
    · exact Or.inr hv

/-- Witness for C2 (amended): a single-group series with positive liquidity;
the final `last_update_ts` is its timestamp. -/
theorem last_update_valid_after_seed_witness :
    (sorted_ts [⟨0, "A", 100, 5⟩]).head? = some 0 ∨
      (compute_liquidity_weighted_benchmark
        (points_at [⟨0, "A", 100, 5⟩] 0)).1.isSome = true :=
  (last_update_valid_after_seed [⟨0, "A", 100, 5⟩] 0).1 (by decide)

lemma run_fold_history_ts (series : List VenuePoint) (L : List ℚ) :
    ∀ s : DemoState,
      ((L.foldl (fun s u => run_step s u (points_at series u)) s).benchmark_history.map
          (·.ts)) =
        (s.benchmark_history.map (·.ts)) ++ L := by
  induction L with
  | nil => intro s; simp
  | cons u us ih =>
    intro s
    rw [List.foldl_cons, ih, (run_step_components s u (points_at series u)).2.2]
    simp

/-- C3 counterexample: on an input whose second group's timestamp (1) is less
than the first group's (2), the loop still emits one record per group —
reordered into ascending timestamp order, with both history entries recorded
— instead of rejecting the input and stopping. -/
theorem out_of_order_input_sorted_not_rejected :
    ((run_demo_loop [⟨2, "A", 5, 1⟩, ⟨1, "B", 7, 1⟩]).benchmark_history.map (·.ts)) =
        [1, 2] ∧
    (run_demo_loop [⟨2, "A", 5, 1⟩, ⟨1, "B", 7, 1⟩]).benchmark_history.length = 2 ∧
    (run_demo_loop [⟨2, "A", 5, 1⟩, ⟨1, "B", 7, 1⟩]).rolling_liq = [1, 1] := by
  decide

/-- C3 (amended): the orchestrator never rejects out-of-order input; it sorts
the distinct input timestamps into ascending order and processes every one of
them, emitting exactly one record per distinct timestamp. -/
theorem run_demo_loop_sorts_and_processes_all :
    ∀ series : List VenuePoint,
      ((run_demo_loop series).benchmark_history.map (·.ts)) = sorted_ts series ∧
      (sorted_ts series).Sorted (· ≤ ·) ∧
      (∀ t : ℚ, t ∈ sorted_ts series ↔ t ∈ series.map (·.ts)) := by
  intro series
  refine ⟨?_, ?_, ?_⟩
  · have h := run_fold_history_ts series (sorted_ts series) init_state
    simpa [run_demo_loop, init_state] using h
  · exact List.sorted_insertionSort _ _
  · intro t
    rw [sorted_ts, (List.perm_insertionSort _ _).mem_iff, List.mem_dedup]

lemma uniswap_v2_swap_closed_form (ri ro a f : ℚ) :
    uniswap_v2_swap ri ro a f =
      (ri + a,
       ro - a * (1 - f / 10000) * ro / (ri + a * (1 - f / 10000)),
       a * (1 - f / 10000) * ro / (ri + a * (1 - f / 10000))) := rfl

/-- C9: for positive reserves, positive input amount and a fee in basis
points between 0 and 10000, the swap output satisfies
`0 ≤ amount_out < reserve_out`, the new output reserve stays strictly
positive, and the constant product `reserve_in * reserve_out` never
decreases. -/
theorem uniswap_v2_swap_bounds_and_k :
    ∀ ri ro a f : ℚ, 0 < ri → 0 < ro → 0 < a → 0 ≤ f → f ≤ 10000 →
      0 ≤ (uniswap_v2_swap ri ro a f).2.2 ∧
      (uniswap_v2_swap ri ro a f).2.2 < ro ∧
      0 < (uniswap_v2_swap ri ro a f).2.1 ∧
      ri * ro ≤ (uniswap_v2_swap ri ro a f).1 * (uniswap_v2_swap ri ro a f).2.1 := by
  intro ri ro a f hri hro ha hf0 hf1
  rw [uniswap_v2_swap_closed_form]
  have hfee0 : 0 ≤ f / 10000 := by positivity
  have hfee1 : f / 10000 ≤ 1 := by
    rw [div_le_one (by norm_num)]
    linarith
  set aw := a * (1 - f / 10000) with haw
  have haw0 : 0 ≤ aw := mul_nonneg ha.le (by linarith)
  have hawle : aw ≤ a := by nlinarith
  have hd : 0 < ri + aw := by linarith
  have hout0 : 0 ≤ aw * ro / (ri + aw) := by positivity
  have houtlt : aw * ro / (ri + aw) < ro := by
    rw [div_lt_iff hd]
    nlinarith
  refine ⟨hout0, houtlt, by simpa using sub_pos.mpr houtlt, ?_⟩
  have hkey : ro - aw * ro / (ri + aw) = ri * ro / (ri + aw) := by
    field_simp
    ring
  show ri * ro ≤ (ri + a) * (ro - aw * ro / (ri + aw))
  rw [hkey, ← mul_div_assoc, le_div_iff hd]
  nlinarith [mul_nonneg (mul_pos hri hro).le (sub_nonneg.mpr hawle)]

/-- Witness for C9: the pool of `run_flashloan_demo` (reserves 100 and
200000, input 40, fee 30 bps). -/
theorem uniswap_v2_swap_bounds_and_k_witness :
    0 ≤ (uniswap_v2_swap 100 200000 40 30).2.2 ∧
    (uniswap_v2_swap 100 200000 40 30).2.2 < 200000 ∧
    0 < (uniswap_v2_swap 100 200000 40 30).2.1 ∧
    (100 : ℚ) * 200000 ≤
      (uniswap_v2_swap 100 200000 40 30).1 * (uniswap_v2_swap 100 200000 40 30).2.1 :=
  uniswap_v2_swap_bounds_and_k 100 200000 40 30 (by norm_num) (by norm_num)
    (by norm_num) (by norm_num) (by norm_num)

lemma string_data_inj (a b : String) (h : a.data = b.data) : a = b := by
  cases a
  cases b
  exact congrArg String.mk h

lemma append_sold_ne_append_bought (a b : String) :
    a ++ "_sold" ≠ b ++ "_bought" := by
  intro h
  have h1 : a.data ++ ['_', 's', 'o', 'l', 'd'] =
      b.data ++ ['_', 'b', 'o', 'u', 'g', 'h', 't'] := congrArg String.data h
  have h2 : (a.data ++ ['_', 's', 'o', 'l', 'd']).reverse =
      (b.data ++ ['_', 'b', 'o', 'u', 'g', 'h', 't']).reverse := by rw [h1]
  rw [List.reverse_append, List.reverse_append] at h2
  have h3 : ('d' :: ((['l', 'o', 's', '_'] : List Char) ++ a.data.reverse)) =
      't' :: ((['h', 'g', 'u', 'o', 'b', '_'] : List Char) ++ b.data.reverse) := h2
  injection h3 with h4 h5
  exact absurd h4 (by decide)

lemma append_bought_ne_append_sold (a b : String) :
    a ++ "_bought" ≠ b ++ "_sold" :=
  fun h => append_sold_ne_append_bought b a h.symm

lemma append_label_inj (a b s : String) (h : a ++ s = b ++ s) : a = b := by
  have h1 : a.data ++ s.data = b.data ++ s.data := congrArg String.data h
  exact string_data_inj a b (List.append_left_injective _ h1)

lemma summarize_foldl_filter (events : List LogEvent) :
    ∀ m : String → String → ℚ,
      events.foldl summarize_step m =
        (events.filter (fun e => e.event_type == "SWAP")).foldl summarize_step m := by
  induction events with
  | nil => intro m; rfl
  | cons e es ih =>
    intro m
    by_cases he : e.event_type = "SWAP"
    · rw [List.foldl_cons, List.filter_cons_of_pos (by simp [he]), List.foldl_cons, ih]
    · have hskip : summarize_step m e = m := by
        simp [summarize_step, he]
      rw [List.foldl_cons, hskip, List.filter_cons_of_neg (by simp [he]), ih]

lemma summarize_step_sold (m : String → String → ℚ) (e : LogEvent) (pool tok : String) :
    (summarize_step m e) pool (tok ++ "_sold") =
      m pool (tok ++ "_sold") +
        (if e.event_type = "SWAP" ∧ pool = e.pool ∧ tok = e.token_in
         then e.amount_in else 0) := by
  have hnb : ¬ (tok ++ "_sold" = e.token_out ++ "_bought") :=
    append_sold_ne_append_bought tok e.token_out
  have hiff : (tok ++ "_sold" = e.token_in ++ "_sold") ↔ tok = e.token_in :=
    ⟨fun h => append_label_inj _ _ _ h, fun h => by rw [h]⟩
  by_cases he : e.event_type = "SWAP"
  · by_cases hp : pool = e.pool ∧ tok = e.token_in
    · simp [summarize_step, add_flow, he, append_sold_ne_append_bought, hiff,
        hp.1, hp.2]
    · simp [summarize_step, add_flow, he, append_sold_ne_append_bought, hiff, hp]
  · simp [summarize_step, he]

lemma summarize_step_bought (m : String → String → ℚ) (e : LogEvent) (pool tok : String) :
    (summarize_step m e) pool (tok ++ "_bought") =
      m pool (tok ++ "_bought") +
        (if e.event_type = "SWAP" ∧ pool = e.pool ∧ tok = e.token_out
         then e.amount_out else 0) := by
  have hns : ¬ (tok ++ "_bought" = e.token_in ++ "_sold") :=
    fun h => append_sold_ne_append_bought e.token_in tok h.symm
  have hiff : (tok ++ "_bought" = e.token_out ++ "_bought") ↔ tok = e.token_out :=
    ⟨fun h => append_label_inj _ _ _ h, fun h => by rw [h]⟩
  by_cases he : e.event_type = "SWAP"
  · by_cases hp : pool = e.pool ∧ tok = e.token_out
    · simp [summarize_step, add_flow, he, append_bought_ne_append_sold, hiff,
        hp.1, hp.2]
    · simp [summarize_step, add_flow, he, append_bought_ne_append_sold, hiff, hp]
  · simp [summarize_step, he]

lemma summarize_foldl_sold (pool tok : String) (events : List LogEvent) :
    ∀ m : String → String → ℚ,
      (events.foldl summarize_step m) pool (tok ++ "_sold") =
        m pool (tok ++ "_sold") +
          ((events.filter (fun e =>
              e.event_type == "SWAP" && e.pool == pool && e.token_in == tok)).map
            (·.amount_in)).sum := by
  induction events with
  | nil => intro m; simp
  | cons e es ih =>
    intro m
    rw [List.foldl_cons, ih (summarize_step m e), summarize_step_sold]
    by_cases hf : e.event_type = "SWAP" ∧ pool = e.pool ∧ tok = e.token_in
    · rw [if_pos hf,
        List.filter_cons_of_pos (by
          simp only [Bool.and_eq_true, beq_iff_eq]
          exact ⟨⟨hf.1, hf.2.1.symm⟩, hf.2.2.symm⟩),
        List.map_cons, List.sum_cons]
      ring
    · rw [if_neg hf,
        List.filter_cons_of_neg (by
          simp only [Bool.and_eq_true, beq_iff_eq]
          intro hc
          exact hf ⟨hc.1.1, hc.1.2.symm, hc.2.symm⟩),
        add_zero]

lemma summarize_foldl_bought (pool tok : String) (events : List LogEvent) :
    ∀ m : String → String → ℚ,
      (events.foldl summarize_step m) pool (tok ++ "_bought") =
        m pool (tok ++ "_bought") +
          ((events.filter (fun e =>
              e.event_type == "SWAP" && e.pool == pool && e.token_out == tok)).map
            (·.amount_out)).sum := by
  induction events with
  | nil => intro m; simp
  | cons e es ih =>
    intro m
    rw [List.foldl_cons, ih (summarize_step m e), summarize_step_bought]
    by_cases hf : e.event_type = "SWAP" ∧ pool = e.pool ∧ tok = e.token_out
    · rw [if_pos hf,
        List.filter_cons_of_pos (by
          simp only [Bool.and_eq_true, beq_iff_eq]
          exact ⟨⟨hf.1, hf.2.1.symm⟩, hf.2.2.symm⟩),
        List.map_cons, List.sum_cons]
      ring
    · rw [if_neg hf,
        List.filter_cons_of_neg (by
          simp only [Bool.and_eq_true, beq_iff_eq]
          intro hc
          exact hf ⟨hc.1.1, hc.1.2.symm, hc.2.symm⟩),
        add_zero]

/-- C10: the per-pool swap summary depends only on the subsequence of SWAP
events — two event lists with the same SWAP events in the same order yield
identical summaries — and each pool's `<token>_sold` total is the sum of
`amount_in` over its SWAP events selling that token while its
`<token>_bought` total is the sum of `amount_out` over its SWAP events
buying that token. -/
theorem summarize_swaps_spec :
    (∀ l₁ l₂ : List LogEvent,
        l₁.filter (fun e => e.event_type == "SWAP") =
          l₂.filter (fun e => e.event_type == "SWAP") →
        ∀ pool label : String,
          summarize_swaps l₁ pool label = summarize_swaps l₂ pool label) ∧
    (∀ (events : List LogEvent) (pool tok : String),
        summarize_swaps events pool (tok ++ "_sold") =
          ((events.filter (fun e =>
              e.event_type == "SWAP" && e.pool == pool && e.token_in == tok)).map
            (·.amount_in)).sum ∧
        summarize_swaps events pool (tok ++ "_bought") =
          ((events.filter (fun e =>
              e.event_type == "SWAP" && e.pool == pool && e.token_out == tok)).map
            (·.amount_out)).sum) := by
  constructor
  · intro l₁ l₂ h pool label
    rw [summarize_swaps, summarize_swaps, summarize_foldl_filter l₁,
      summarize_foldl_filter l₂, h]
  · intro events pool tok
    constructor
    · rw [summarize_swaps, summarize_foldl_sold]
      simp
    · rw [summarize_swaps, summarize_foldl_bought]
      simp

/-- Witness for C10: inserting a TRANSFER event between SWAP events does not
change the summary, applied to the synthetic ETH/USDC pool events. -/
theorem summarize_swaps_spec_witness :
    summarize_swaps
        [⟨"0xabc1", "SWAP", "POOL_ETH_USDC", "ETH", "USDC", 12/10, 2400⟩,
         ⟨"0xabc4", "TRANSFER", "POOL_ETH_USDC", "ETH", "ETH", 1/2, 1/2⟩]
        "POOL_ETH_USDC" "ETH_sold" =
      summarize_swaps
        [⟨"0xabc1", "SWAP", "POOL_ETH_USDC", "ETH", "USDC", 12/10, 2400⟩]
        "POOL_ETH_USDC" "ETH_sold" :=
  summarize_swaps_spec.1
    [⟨"0xabc1", "SWAP", "POOL_ETH_USDC", "ETH", "USDC", 12/10, 2400⟩,
     ⟨"0xabc4", "TRANSFER", "POOL_ETH_USDC", "ETH", "ETH", 1/2, 1/2⟩]
    [⟨"0xabc1", "SWAP", "POOL_ETH_USDC", "ETH", "USDC", 12/10, 2400⟩]
    (by decide) "POOL_ETH_USDC" "ETH_sold"

end OracleLab
